import Mathlib

/-!
Verification development for the KYC email simplifier.

The Python engine (`simplifier.py`) is embedded shallowly over `List Char`:
`simplify_text` runs six ordered passes (whitespace normalization, jargon map,
tone map, patterns, KYC-document map, sentence rewrite, final normalization).
The structured-document adapter (`json_convert.py`) is embedded over an
inductive JSON value type.

Modelling conventions:
  * Python `re.sub(r"\s+", " ", t).strip()` is `normalizeWs`;
  * `re.sub(rf"\b{re.escape(raw)}\b", simple, t, flags=re.IGNORECASE)` is
    `sub_ci true raw simple t`: a left-to-right scan replacing each
    case-insensitive literal occurrence of `raw` whose two end positions are
    word boundaries (exactly one of the two adjacent characters is a word
    character, positions outside the string counting as non-word);
  * `re.sub(re.escape(search), replace, t, flags=re.IGNORECASE)` is
    `sub_ci false search replace t` (same scan, boundary checks disabled);
  * replacement strings are inserted verbatim and the scan continues after
    the matched region, exactly as `re.sub` does (the inserted text is never
    rescanned by the same call). Python repl escape sequences (backslashes in
    the replacement) are not modelled: configuration replacement values are
    plain text.
  * case folding and word characters are modelled at the ASCII level
    (`Char.toLower`, `Char.isAlphanum`), matching the behaviour of the source
    on the ASCII texts of the rule tables.
-/

/-- Whitespace characters of Python `\s` (ASCII range). -/
def isWs (c : Char) : Bool :=
  c = ' ' || c = '\t' || c = '\n' || c = '\r' || c = '\x0b' || c = '\x0c'

/-- Word characters of Python `\w` (ASCII range): alphanumeric or underscore. -/
def isWordChar (c : Char) : Bool :=
  c.isAlphanum || c = '_'

/-- Sentence-terminal punctuation recognised by the sentence rewrite pass. -/
def isTerminal (c : Char) : Bool :=
  c = '.' || c = '!' || c = '?'

/-- `re.sub(r"\s+", " ", text)`: collapse each maximal whitespace run to a
single space.  `prevWs` records whether the previously read character was
whitespace (so the current run has already emitted its space). -/
def collapseAux (prevWs : Bool) : List Char → List Char
  | [] => []
  | c :: cs =>
    if isWs c then
      if prevWs then collapseAux true cs else ' ' :: collapseAux true cs
    else
      c :: collapseAux false cs

def collapseWs (l : List Char) : List Char := collapseAux false l

/-- Python `str.strip()`: drop leading and trailing whitespace. -/
def pyStrip (l : List Char) : List Char :=
  (((l.dropWhile isWs).reverse.dropWhile isWs).reverse)

/-- Passes 1 and 7 of `simplify_text`: `re.sub(r"\s+", " ", text).strip()`. -/
def normalizeWs (l : List Char) : List Char := pyStrip (collapseWs l)

/-- Case-insensitive literal prefix match: `some rest` when `raw` matches the
beginning of the text (after ASCII lowercasing both sides), returning the
remainder of the text. -/
def matchPrefixCI : List Char → List Char → Option (List Char)
  | [], t => some t
  | _ :: _, [] => none
  | r :: rs, c :: cs => if r.toLower = c.toLower then matchPrefixCI rs cs else none

/-- Whether an optional character is a word character (`none` = outside the
string = non-word). -/
def wordOpt : Option Char → Bool
  | none => false
  | some c => isWordChar c

/-- Python `\b`: holds between two adjacent positions when exactly one side is
a word character. -/
def boundaryB (a b : Option Char) : Bool := wordOpt a != wordOpt b

/-- One `re.sub` call: scan the text left to right; at each position try to
match `raw` case-insensitively (with `\b` checks at both ends when `useB` is
true); on a match emit `simple` and continue scanning after the matched
region of the original text; otherwise copy one character.  `prev` is the
original-text character just before the current position.  `fuel` bounds the
recursion; every call site supplies `text.length + 1`, which is sufficient
because each step either terminates or consumes at least one character. -/
def scanSubFuel (useB : Bool) (raw simple : List Char) :
    Nat → Option Char → List Char → List Char
  | 0, _, text => text
  | fuel + 1, prev, text =>
    match matchPrefixCI raw text with
    | some rest =>
      let lastC : Option Char :=
        if raw.isEmpty then prev else (text.take raw.length).getLast?
      let startOk : Bool := !useB || boundaryB prev text.head?
      let endOk : Bool := !useB || boundaryB lastC rest.head?
      if startOk && endOk then
        match raw, text with
        | [], [] => simple
        | [], c :: cs => simple ++ c :: scanSubFuel useB raw simple fuel (some c) cs
        | _ :: _, _ => simple ++ scanSubFuel useB raw simple fuel lastC rest
      else
        match text with
        | [] => []
        | c :: cs => c :: scanSubFuel useB raw simple fuel (some c) cs
    | none =>
      match text with
      | [] => []
      | c :: cs => c :: scanSubFuel useB raw simple fuel (some c) cs

/-- One substitution rule applied over the whole text (one `re.sub` call). -/
def sub_ci (useB : Bool) (raw simple text : List Char) : List Char :=
  scanSubFuel useB raw simple (text.length + 1) none text

/-- `_apply_word_map`: each `(raw, simple)` pair in mapping order, each as a
whole-word case-insensitive `re.sub` over the full current text. -/
def apply_word_map (mapping : List (List Char × List Char)) (text : List Char) :
    List Char :=
  mapping.foldl (fun t p => sub_ci true p.1 p.2 t) text

/-- `_apply_patterns`: each `{search, replace}` pair in list order, each as a
case-insensitive literal-substring `re.sub` (no word boundaries). -/
def apply_patterns (patterns : List (List Char × List Char)) (text : List Char) :
    List Char :=
  patterns.foldl (fun t p => sub_ci false p.1 p.2 t) text

/-- `_apply_kyc_doc_rules`: same mechanics as `_apply_word_map`, applied to the
`kyc_documents` table. -/
def apply_kyc_doc_rules (kyc : List (List Char × List Char)) (text : List Char) :
    List Char :=
  kyc.foldl (fun t p => sub_ci true p.1 p.2 t) text

/-- Number of whitespace-delimited tokens, i.e. `len(s.split())`.  `inWord`
records whether the previous character was part of a word already counted. -/
def countWordsAux (inWord : Bool) : List Char → Nat
  | [] => 0
  | c :: cs =>
    if isWs c then countWordsAux false cs
    else (if inWord then 0 else 1) + countWordsAux true cs

def countWords (l : List Char) : Nat := countWordsAux false l

/-- Python `s.split(",")`: split on every comma, keeping empty segments. -/
def splitOnComma : List Char → List (List Char) :=
  go []
where
  go (acc : List Char) : List Char → List (List Char)
    | [] => [acc.reverse]
    | c :: cs => if c = ',' then acc.reverse :: go [] cs else go (c :: acc) cs

/-- Python `", ".join` / `" ".join` over a list of segments. -/
def joinWith (sep : List Char) : List (List Char) → List Char
  | [] => []
  | [x] => x
  | x :: y :: ys => x ++ sep ++ joinWith sep (y :: ys)

/-- `re.split(r"(?<=[.!?])\s+", text)`: cut the text after each
terminal-punctuation character that is followed by whitespace, consuming the
whitespace run.  `skip` is true while consuming such a run; `acc` holds the
current candidate reversed. -/
def splitSentAux (skip : Bool) (acc : List Char) : List Char → List (List Char)
  | [] => [acc.reverse]
  | c :: cs =>
    if skip && isWs c then splitSentAux true acc cs
    else if isTerminal c && (match cs.head? with | some d => isWs d | none => false) then
      ((c :: acc).reverse) :: splitSentAux true [] cs
    else
      splitSentAux false (c :: acc) cs

def splitSentences (l : List Char) : List (List Char) := splitSentAux false [] l

/-- `s.endswith(('.', '?', '!'))`. -/
def endsTerminal (l : List Char) : Bool :=
  match l.getLast? with
  | some c => isTerminal c
  | none => false

/-- Body of the `for s in sentences` loop of `_rewrite_sentences`: the output
sentences contributed by one candidate.  In the split branch `parts[0] + "."`
is always emitted, then the comma-joined remainder plus a period only when
there is more than one segment (`parts.headI` is `parts[0]`; the segment list
returned by `splitOnComma` is never empty). -/
def processCandidate (limit : Nat) (s : List Char) : List (List Char) :=
  let t := pyStrip s
  if t = [] then []
  else if limit < countWords t ∧ ',' ∈ t then
    let parts := (splitOnComma t).map pyStrip
    (parts.headI ++ ['.']) ::
      (if parts.length > 1 then [joinWith [',', ' '] parts.tail ++ ['.']] else [])
  else [if endsTerminal t then t else t ++ ['.']]

/-- `_rewrite_sentences`: split into candidates, process each, join the
emitted sentences with a single space. -/
def rewrite_sentences (limit : Nat) (text : List Char) : List Char :=
  joinWith [' '] ((splitSentences text).flatMap (processCandidate limit))

/-- The loaded rule configuration (`EmailSimplifier` fields).  Word maps and
the KYC table are ordered association lists; patterns are ordered
`(search, replace)` pairs. -/
structure RuleSet where
  jargon_map : List (List Char × List Char)
  tone_map : List (List Char × List Char)
  patterns : List (List Char × List Char)
  kyc_documents : List (List Char × List Char)
  sentence_length_limit : Nat

/-- `EmailSimplifier.simplify_text`: the six ordered passes.  Empty input
returns unchanged (`if not text`). -/
def simplify_text (R : RuleSet) (text : List Char) : List Char :=
  if text = [] then text
  else
    let t1 := normalizeWs text
    let t2 := apply_word_map R.jargon_map t1
    let t3 := apply_word_map R.tone_map t2
    let t4 := apply_patterns R.patterns t3
    let t5 := apply_kyc_doc_rules R.kyc_documents t4
    normalizeWs (rewrite_sentences R.sentence_length_limit t5)

/-- `simplify_text` at the `String` interface. -/
def simplifyS (R : RuleSet) (s : String) : String :=
  String.mk (simplify_text R s.data)

/-! ## Structured-document adapter (`json_convert.py`) -/

/-- JSON-like values handled by the structured-document adapter. -/
inductive Json where
  | null : Json
  | bool : Bool → Json
  | num : Int → Json
  | str : String → Json
  | arr : List Json → Json
  | obj : List (String × Json) → Json

/-- Python `type(x).__name__` for JSON values. -/
def typeName : Json → String
  | .null => "NoneType"
  | .bool _ => "bool"
  | .num _ => "int"
  | .str _ => "str"
  | .arr _ => "list"
  | .obj _ => "dict"

/-- `JsonSimplifier._is_container`. -/
def isContainer : Json → Bool
  | .arr _ => true
  | .obj _ => true
  | _ => false

/-- First value stored under a key of an object (Python `entry[field]`;
`none` models `field not in entry`). -/
def lookupKey (k : String) : List (String × Json) → Option Json
  | [] => none
  | (k2, v) :: rest => if k2 = k then some v else lookupKey k rest

/-- Python `entry[field] = v` on an (insertion-ordered) dict: overwrite the
existing key in place, or append the new key at the end. -/
def setField (k : String) (v : Json) : List (String × Json) → List (String × Json)
  | [] => [(k, v)]
  | (k2, v2) :: rest =>
    if k2 = k then (k, v) :: rest else (k2, v2) :: setField k v rest

/-- The `TypeError` message of `_simplify_entry` (the source additionally
wraps the field name in single quotes). -/
def typeErrMsg (tf : String) (v : Json) : String :=
  "Expected " ++ tf ++ " to be a string, got " ++ typeName v

mutual
/-- `JsonSimplifier._simplify_entry`: a mapping that contains the text field
gets the simplified text written under the output field (a non-string value
there raises `TypeError`); a sequence is processed entrywise; anything else
is returned unchanged. -/
def simplifyEntry (R : RuleSet) (tf of : String) : Json → Except String Json
  | .obj kvs =>
    match lookupKey tf kvs with
    | some (.str s) => .ok (.obj (setField of (.str (simplifyS R s)) kvs))
    | some v => .error (typeErrMsg tf v)
    | none => .ok (.obj kvs)
  | .arr xs => (simplifyEntryList R tf of xs).map Json.arr
  | e => .ok e

def simplifyEntryList (R : RuleSet) (tf of : String) :
    List Json → Except String (List Json)
  | [] => .ok []
  | x :: xs => do
    let y ← simplifyEntry R tf of x
    let ys ← simplifyEntryList R tf of xs
    .ok (y :: ys)
end

mutual
/-- `JsonSimplifier.simplify_payload`: a sequence is processed with
`_simplify_entry` per entry; a mapping keeps every key and recurses only into
container values; scalars are returned unchanged. -/
def simplify_payload (R : RuleSet) (tf of : String) : Json → Except String Json
  | .arr xs => (simplifyEntryList R tf of xs).map Json.arr
  | .obj kvs => (simplifyFields R tf of kvs).map Json.obj
  | v => .ok v

def simplifyFields (R : RuleSet) (tf of : String) :
    List (String × Json) → Except String (List (String × Json))
  | [] => .ok []
  | (k, v) :: rest => do
    let v2 ← if isContainer v then simplify_payload R tf of v else .ok v
    let rest2 ← simplifyFields R tf of rest
    .ok ((k, v2) :: rest2)
end

/-! ## Spec-side model of a single substitution pass (for comparison) -/

/-- First rule of the list that matches at the current position, with the same
case-insensitive whole-word matching as one `re.sub` step: returns the
replacement, the last matched original character, and the remainder.  Rules
with an empty search term are ignored (they could not make progress). -/
def firstRuleMatch (rules : List (List Char × List Char)) (prev : Option Char)
    (text : List Char) : Option (List Char × Option Char × List Char) :=
  rules.findSome? fun p =>
    if p.1.isEmpty then none
    else
      match matchPrefixCI p.1 text with
      | some rest =>
        let lastC : Option Char := (text.take p.1.length).getLast?
        if boundaryB prev text.head? && boundaryB lastC rest.head? then
          some (p.2, lastC, rest)
        else none
      | none => none

/-- Modelled from the spec: a simultaneous (non-chaining) substitution pass,
in which replacement text "is inserted verbatim (not itself re-scanned by
later rules in the same pass)".  The scan walks the original text once; at
each position the first rule (in mapping order) that matches is applied, its
replacement goes to the output without ever being scanned again by this pass,
and scanning resumes in the original text after the matched region. -/
def simultaneousSubFuel (rules : List (List Char × List Char)) :
    Nat → Option Char → List Char → List Char
  | 0, _, text => text
  | fuel + 1, prev, text =>
    match firstRuleMatch rules prev text with
    | some (repl, lastC, rest) => repl ++ simultaneousSubFuel rules fuel lastC rest
    | none =>
      match text with
      | [] => []
      | c :: cs => c :: simultaneousSubFuel rules fuel (some c) cs

/-- Modelled from the spec: the whole-word substitution pass as the spec words
it — one simultaneous pass over the text in which no rule can match inside
text produced by an earlier rule of the same pass. -/
def simultaneous_word_map (rules : List (List Char × List Char))
    (text : List Char) : List Char :=
  simultaneousSubFuel rules (text.length + 1) none text

/-! ## Helper lemmas -/

/-- Stripping only removes characters: membership is preserved downwards. -/
theorem mem_of_mem_pyStrip {c : Char} {l : List Char} (h : c ∈ pyStrip l) :
    c ∈ l := by
  unfold pyStrip at h
  rw [List.mem_reverse] at h
  have h2 := (List.dropWhile_sublist (l := (l.dropWhile isWs).reverse) isWs).subset h
  rw [List.mem_reverse] at h2
  exact (List.dropWhile_sublist isWs).subset h2

/-! ## Claims -/

/-- Claim C1, counterexample: with `sentenceLengthLimit = 5`, the long comma
sentence does NOT simplify to
`"This is a very long sentence with many words. and a second clause."`:
the emitted remainder keeps the original terminal period of the input and
gains a second one. -/
theorem claim_C1_counterexample :
    simplifyS ⟨[], [], [], [], 5⟩
      "This is a very long sentence with many words, and a second clause." ≠
      "This is a very long sentence with many words. and a second clause." := by
  decide

/-- Claim C1, amended: with `sentenceLengthLimit = 5`, the input splits into
the first comma segment followed by a period and the comma-joined remainder
followed by an appended period; since the remainder already ends in the
input's terminal period, the second output sentence ends in two periods:
`"This is a very long sentence with many words. and a second clause.."`. -/
theorem claim_C1_amended :
    simplifyS ⟨[], [], [], [], 5⟩
      "This is a very long sentence with many words, and a second clause." =
      "This is a very long sentence with many words. and a second clause.." := by
  decide

/-- Claim C2, counterexample: a word-map pass is not a simultaneous
substitution.  With the mapping `{"a": "b", "b": "c"}` on input `"a"`, the
sequential pass rewrites the first rule's replacement `"b"` with the second
rule, producing `"c"`, while a simultaneous (non-chaining) pass produces
`"b"`. -/
theorem claim_C2_counterexample :
    apply_word_map [("a".data, "b".data), ("b".data, "c".data)] "a".data ≠
      simultaneous_word_map [("a".data, "b".data), ("b".data, "c".data)] "a".data := by
  decide

/-- Claim C2, amended: within a single substitution pass the rules are applied
sequentially in mapping order, each rewriting the full text left by the
previous rules, so replacement text inserted by one rule can be matched and
rewritten by later rules of the same pass.  Formally: running a pass on a
concatenated rule list equals running the later rules on the output of the
earlier rules, and concretely `{"a": "b", "b": "c"}` chains `"a"` to `"c."`
through the full pipeline. -/
theorem claim_C2_amended :
    (∀ (m1 m2 : List (List Char × List Char)) (t : List Char),
        apply_word_map (m1 ++ m2) t = apply_word_map m2 (apply_word_map m1 t)) ∧
      simplifyS ⟨[("a".data, "b".data), ("b".data, "c".data)], [], [], [], 22⟩ "a" = "c." := by
  constructor
  · intro m1 m2 t
    exact List.foldl_append _ _ m1 m2
  · decide

/-- Claim C4: word-map substitution is whole-word bounded.  With
`jargonMap = {"id": "identity"}`, the `"id"` inside `"identification"` is not
replaced, the standalone `"id"` is, and a terminal period is appended:
`simplify("identification id") = "identification identity."`. -/
theorem claim_C4 :
    simplifyS ⟨[("id".data, "identity".data)], [], [], [], 22⟩ "identification id" =
      "identification identity." := by
  decide

/-- Claim C5: a sentence candidate without a comma is never split, regardless
of its length: it is emitted intact, with a terminal `.` appended when it
does not already end in `.`, `!` or `?`.  Concretely, with
`sentenceLengthLimit = 3` the comma-free seven-word input stays one sentence
with a period appended. -/
theorem claim_C5 :
    (∀ (limit : Nat) (s : List Char), ',' ∉ s →
        processCandidate limit s =
          if pyStrip s = [] then []
          else [if endsTerminal (pyStrip s) then pyStrip s else pyStrip s ++ ['.']]) ∧
      simplifyS ⟨[], [], [], [], 3⟩ "This sentence has no commas at all" =
        "This sentence has no commas at all." := by
  constructor
  · intro limit s h
    unfold processCandidate
    have hc : ¬(limit < countWords (pyStrip s) ∧ ',' ∈ pyStrip s) := by
      rintro ⟨-, hmem⟩
      exact h (mem_of_mem_pyStrip hmem)
    by_cases he : pyStrip s = []
    · simp [he]
    · simp [he, hc]
  · decide

/-- Claim C5, witness. -/
theorem claim_C5_witness :
    processCandidate 1 "alpha beta gamma".data = ["alpha beta gamma.".data] := by
  have h := claim_C5.1 1 "alpha beta gamma".data (by decide)
  rw [h]
  decide

/-- Claim C6: the pattern pass is case-insensitive literal substring
replacement, not word-bounded.  Concretely: the multi-word phrase
`"as soon as possible"` is replaced inside a sentence; `"cat"` is replaced
inside the larger word `"concatenate"` (no word boundary required); and the
uppercase search `"URGENT"` matches the lowercase text `"urgent"`. -/
theorem claim_C6 :
    simplifyS ⟨[], [], [("as soon as possible".data, "right away".data)], [], 22⟩
        "Please respond as soon as possible." = "Please respond right away." ∧
      simplifyS ⟨[], [], [("cat".data, "dog".data)], [], 22⟩ "concatenate" =
        "condogenate." ∧
      simplifyS ⟨[], [], [("URGENT".data, "important".data)], [], 22⟩ "This is urgent" =
        "This is important." := by
  refine ⟨by decide, by decide, by decide⟩

/-- Claim C8: `simplify` is deterministic — it is a pure function of the
RuleSet and the input string, so two invocations agree. -/
theorem claim_C8 (R : RuleSet) (s : String) : simplifyS R s = simplifyS R s := rfl

/-- Claim C3, counterexample: the structured-document adapter does NOT
simplify every object containing the text-field key.  A top-level object
with the key `"text"` is returned unchanged by `simplify_payload` — its
string is not simplified and no `"simplified_text"` field is written. -/
theorem claim_C3_counterexample :
    simplify_payload ⟨[], [], [], [], 22⟩ "text" "simplified_text"
        (.obj [("text", .str "hello")]) = .ok (.obj [("text", .str "hello")]) ∧
      lookupKey "simplified_text" [("text", Json.str "hello")] = none := by
  refine ⟨?_, rfl⟩
  simp [simplify_payload, simplifyFields, isContainer, Except.map, Bind.bind, Except.bind]

/-- Claim C3, amended: `simplify_payload` simplifies an object bearing the
text-field key only when that object is reached as an entry of a list
(directly, or through a list stored as the value of an object key); an
object bearing the key that is the top-level payload itself, or the direct
value of another object's key, is returned unchanged. -/
theorem claim_C3_amended (R : RuleSet) (s : String) :
    simplify_payload R "text" "simplified_text" (.arr [.obj [("text", .str s)]]) =
        .ok (.arr [.obj [("text", .str s), ("simplified_text", .str (simplifyS R s))]]) ∧
      simplify_payload R "text" "simplified_text"
          (.obj [("k", .arr [.obj [("text", .str s)]])]) =
        .ok (.obj [("k", .arr [.obj [("text", .str s),
          ("simplified_text", .str (simplifyS R s))]])]) ∧
      simplify_payload R "text" "simplified_text" (.obj [("text", .str s)]) =
        .ok (.obj [("text", .str s)]) ∧
      simplify_payload R "text" "simplified_text"
          (.obj [("k", .obj [("text", .str s)])]) =
        .ok (.obj [("k", .obj [("text", .str s)])]) := by
  refine ⟨?_, ?_, ?_, ?_⟩ <;>
    simp [simplify_payload, simplifyFields, isContainer, simplifyEntryList,
      simplifyEntry, lookupKey, setField, Except.map, Bind.bind, Except.bind]

/-- Claim C7: an entry whose text-field value is a string gets the simplified
text appended under the output field with the original text field and every
other field preserved; an entry whose text-field value is not a string makes
`_simplify_entry` raise a `TypeError`; and the documented round trip holds:
`[{"text": "KYC form required."}]` becomes
`[{"text": ..., "simplified_text": <simplified>}]`. -/
theorem claim_C7 :
    (∀ (R : RuleSet) (s : String) (k : String) (v : Json), k ≠ "simplified_text" →
        simplifyEntry R "text" "simplified_text" (.obj [("text", .str s), (k, v)]) =
          .ok (.obj [("text", .str s), (k, v),
            ("simplified_text", .str (simplifyS R s))])) ∧
      (∀ (R : RuleSet) (v : Json), (∀ s, v ≠ .str s) →
        simplifyEntry R "text" "simplified_text" (.obj [("text", v)]) =
          .error (typeErrMsg "text" v)) ∧
      (∀ R : RuleSet,
        simplify_payload R "text" "simplified_text"
            (.arr [.obj [("text", .str "KYC form required.")]]) =
          .ok (.arr [.obj [("text", .str "KYC form required."),
            ("simplified_text", .str (simplifyS R "KYC form required."))]])) := by
  refine ⟨?_, ?_, ?_⟩
  · intro R s k v h2
    simp [simplifyEntry, lookupKey, setField, h2]
  · intro R v h
    cases v
    case str s => exact absurd rfl (h s)
    all_goals simp [simplifyEntry, lookupKey]
  · intro R
    simp [simplify_payload, simplifyEntryList, simplifyEntry, lookupKey,
      setField, Except.map, Bind.bind, Except.bind]

/-- Claim C7, witness: the string case appends the simplified text after the
other fields, and an integer under `"text"` raises the type error. -/
theorem claim_C7_witness :
    simplifyEntry ⟨[], [], [], [], 22⟩ "text" "simplified_text"
        (.obj [("text", .str "hi"), ("note", .null)]) =
      .ok (.obj [("text", .str "hi"), ("note", .null),
        ("simplified_text", .str "hi.")]) ∧
      simplifyEntry ⟨[], [], [], [], 22⟩ "text" "simplified_text"
          (.obj [("text", .num 7)]) =
        .error "Expected text to be a string, got int" := by
  constructor
  · have h := claim_C7.1 ⟨[], [], [], [], 22⟩ "hi" "note" .null (by decide)
    have hs : simplifyS ⟨[], [], [], [], 22⟩ "hi" = "hi." := by decide
    rw [h, hs]
  · have h := claim_C7.2.1 ⟨[], [], [], [], 22⟩ (.num 7)
      (fun s hs => Json.noConfusion hs)
    rw [h]
    rfl

/-! ## Whitespace-normalization lemmas -/

/-- Scan predicate: every whitespace character is a plain space and never
follows another whitespace character (`prevWs` = previous char was ws). -/
def cleanAux (prevWs : Bool) : List Char → Bool
  | [] => true
  | c :: cs => if isWs c then (!prevWs && (c = ' ')) && cleanAux true cs else cleanAux false cs

/-- The last character, if any, is not whitespace. -/
def endsOk : List Char → Bool
  | [] => true
  | [c] => !isWs c
  | _ :: c :: cs => endsOk (c :: cs)

theorem clean_collapseAux (l : List Char) : ∀ b, cleanAux b (collapseAux b l) = true := by
  induction l with
  | nil => intro b; rfl
  | cons c cs ih =>
    intro b
    by_cases h : isWs c = true
    · cases b with
      | true => simpa [collapseAux, h] using ih true
      | false =>
        have e1 : collapseAux false (c :: cs) = ' ' :: collapseAux true cs := by
          simp [collapseAux, h]
        have e2 : cleanAux false (' ' :: collapseAux true cs) =
            cleanAux true (collapseAux true cs) := by
          simp [cleanAux, show isWs ' ' = true from rfl]
        rw [e1, e2]
        exact ih true
    · simpa [collapseAux, h, cleanAux] using ih false

theorem collapseAux_of_clean {l : List Char} :
    ∀ b, cleanAux b l = true → collapseAux b l = l := by
  induction l with
  | nil => intro b _; rfl
  | cons c cs ih =>
    intro b h
    by_cases hw : isWs c = true
    · cases b with
      | true => simp [cleanAux, hw] at h
      | false =>
        simp only [cleanAux, hw, if_true, Bool.and_eq_true, Bool.not_eq_true'] at h
        obtain ⟨⟨-, hsp⟩, hrest⟩ := h
        have hc : c = ' ' := by simpa using hsp
        subst hc
        have e1 : collapseAux false (' ' :: cs) = ' ' :: collapseAux true cs := rfl
        rw [e1, ih true hrest]
    · simp only [cleanAux, hw, if_false] at h
      simp [collapseAux, hw, ih false h]

theorem clean_true_head {c : Char} {cs : List Char}
    (h : cleanAux true (c :: cs) = true) : isWs c = false := by
  by_cases hw : isWs c = true
  · simp [cleanAux, hw] at h
  · simpa using hw

theorem clean_true_tail {c : Char} {cs : List Char}
    (h : cleanAux true (c :: cs) = true) : cleanAux false cs = true := by
  have hc := clean_true_head h
  simpa [cleanAux, hc] using h

theorem clean_true_false {l : List Char} (h : cleanAux true l = true) :
    cleanAux false l = true := by
  cases l with
  | nil => rfl
  | cons c cs =>
    have hc := clean_true_head h
    simpa [cleanAux, hc] using clean_true_tail h

theorem dropWhile_of_clean_true {m : List Char} (h : cleanAux true m = true) :
    m.dropWhile isWs = m := by
  cases m with
  | nil => rfl
  | cons c cs => exact List.dropWhile_cons_of_neg (by simp [clean_true_head h])

theorem clean_dropWhile {m : List Char} (h : cleanAux false m = true) :
    cleanAux true (m.dropWhile isWs) = true := by
  cases m with
  | nil => rfl
  | cons c cs =>
    by_cases hw : isWs c = true
    · simp only [cleanAux, hw, if_true, Bool.and_eq_true] at h
      rw [List.dropWhile_cons_of_pos hw, dropWhile_of_clean_true h.2]
      exact h.2
    · rw [List.dropWhile_cons_of_neg (by simpa using hw)]
      simpa [cleanAux, hw] using h

theorem clean_append_left {l1 l2 : List Char} :
    ∀ b, cleanAux b (l1 ++ l2) = true → cleanAux b l1 = true := by
  induction l1 with
  | nil => intro b _; rfl
  | cons c cs ih =>
    intro b h
    by_cases hw : isWs c = true
    · simp only [List.cons_append, cleanAux, hw, if_true, Bool.and_eq_true] at h ⊢
      exact ⟨h.1, ih true h.2⟩
    · simp only [List.cons_append, cleanAux, hw, if_false] at h ⊢
      exact ih false h

theorem endsOk_iff {m : List Char} :
    endsOk m = true ↔ (∀ c, m.getLast? = some c → isWs c = false) := by
  induction m with
  | nil => simp [endsOk]
  | cons a l ih =>
    cases l with
    | nil => simp [endsOk]
    | cons b l2 =>
      rw [List.getLast?_cons_cons]
      exact (by simpa [endsOk] using ih)

theorem endsOk_of_head {r : List Char}
    (h : ∀ c, r.head? = some c → isWs c = false) : endsOk r.reverse = true := by
  rw [endsOk_iff]
  intro c hc
  rw [List.getLast?_reverse] at hc
  exact h c hc

/-- The normalized form is clean and ends in a non-whitespace character. -/
theorem normalizeWs_good (l : List Char) :
    cleanAux true (normalizeWs l) = true ∧ endsOk (normalizeWs l) = true := by
  unfold normalizeWs pyStrip collapseWs
  set m1 := (collapseAux false l).dropWhile isWs with hm1
  have hclean1 : cleanAux true m1 = true := clean_dropWhile (clean_collapseAux l false)
  constructor
  · have hdec : (m1.reverse.dropWhile isWs).reverse ++ (m1.reverse.takeWhile isWs).reverse = m1 := by
      rw [← List.reverse_append, List.takeWhile_append_dropWhile, List.reverse_reverse]
    exact clean_append_left true (by rw [hdec]; exact hclean1)
  · refine endsOk_of_head ?_
    intro c hc
    have hdw := List.head?_dropWhile_not isWs m1.reverse
    rw [hc] at hdw
    exact hdw

/-- `normalizeWs` is the identity on clean strings with non-whitespace end. -/
theorem normalizeWs_of_good {m : List Char} (h1 : cleanAux true m = true)
    (h2 : endsOk m = true) : normalizeWs m = m := by
  unfold normalizeWs collapseWs pyStrip
  rw [collapseAux_of_clean false (clean_true_false h1), dropWhile_of_clean_true h1]
  cases hrev : m.reverse with
  | nil =>
    rw [List.reverse_eq_nil_iff] at hrev
    simp [hrev]
  | cons c cs =>
    have hlast : m.getLast? = some c := by
      rw [← List.head?_reverse, hrev]
      rfl
    have hcw : isWs c = false := (endsOk_iff.mp h2) c hlast
    rw [List.dropWhile_cons_of_neg (by simp [hcw]), ← hrev, List.reverse_reverse]

/-- Claim C9: whitespace normalization (collapse every whitespace run to a
single space, then trim both ends) is idempotent: normalizing an
already-normalized string is a no-op. -/
theorem claim_C9 (s : String) :
    normalizeWs (normalizeWs s.data) = normalizeWs s.data := by
  obtain ⟨h1, h2⟩ := normalizeWs_good s.data
  exact normalizeWs_of_good h1 h2

/-! ## Terminal-punctuation lemmas -/

/-- Appending a period makes the last character a period. -/
theorem endsTerminal_append_dot (l : List Char) :
    endsTerminal (l ++ ['.']) = true := by
  unfold endsTerminal
  rw [List.getLast?_append]
  rfl

theorem terminal_not_ws {c : Char} (h : isTerminal c = true) : isWs c = false := by
  have h2 : (c = '.' ∨ c = '!') ∨ c = '?' := by simpa [isTerminal, or_assoc] using h
  rcases h2 with (h2 | h2) | h2 <;> subst h2 <;> rfl

theorem getLast?_append_right {l m : List Char} (hm : m ≠ []) :
    (l ++ m).getLast? = m.getLast? := by
  rw [List.getLast?_append]
  cases hgl : m.getLast? with
  | none => exact absurd (List.getLast?_eq_none_iff.mp hgl) hm
  | some c => rfl

theorem getLast?_cons_of_ne_nil {x : Char} {l : List Char} (h : l ≠ []) :
    (x :: l).getLast? = l.getLast? := by
  cases l with
  | nil => exact absurd rfl h
  | cons y ys => exact List.getLast?_cons_cons

theorem processCandidate_good {limit : Nat} {s x : List Char}
    (hx : x ∈ processCandidate limit s) : x ≠ [] ∧ endsTerminal x = true := by
  unfold processCandidate at hx
  by_cases h0 : pyStrip s = []
  · simp [h0] at hx
  · rw [if_neg h0] at hx
    by_cases h1 : limit < countWords (pyStrip s) ∧ ',' ∈ pyStrip s
    · rw [if_pos h1] at hx
      rcases List.mem_cons.mp hx with hx | hx
      · subst hx
        exact ⟨by simp, endsTerminal_append_dot _⟩
      · by_cases h2 : ((splitOnComma (pyStrip s)).map pyStrip).length > 1
        · rw [if_pos h2, List.mem_singleton] at hx
          subst hx
          exact ⟨by simp, endsTerminal_append_dot _⟩
        · rw [if_neg h2] at hx
          simp at hx
    · rw [if_neg h1, List.mem_singleton] at hx
      subst hx
      by_cases h3 : endsTerminal (pyStrip s) = true
      · rw [if_pos h3]
        exact ⟨h0, h3⟩
      · rw [if_neg h3]
        exact ⟨by simp, endsTerminal_append_dot _⟩

theorem joinWith_ne_nil {sep y : List Char} {ys : List (List Char)} (hy : y ≠ []) :
    joinWith sep (y :: ys) ≠ [] := by
  cases ys with
  | nil => simpa [joinWith] using hy
  | cons z zs => simp [joinWith, hy]

theorem joinWith_good {parts : List (List Char)}
    (h : ∀ x ∈ parts, x ≠ [] ∧ endsTerminal x = true) :
    joinWith [' '] parts = [] ∨ endsTerminal (joinWith [' '] parts) = true := by
  induction parts with
  | nil => left; rfl
  | cons x xs ih =>
    right
    cases xs with
    | nil => simpa [joinWith] using (h x (by simp)).2
    | cons y ys =>
      have hy := h y (by simp)
      have hxs : ∀ z ∈ y :: ys, z ≠ [] ∧ endsTerminal z = true := by
        intro z hz
        exact h z (by simp [hz])
      have hne : joinWith [' '] (y :: ys) ≠ [] := joinWith_ne_nil hy.1
      have hends : endsTerminal (joinWith [' '] (y :: ys)) = true := by
        rcases ih hxs with hh | hh
        · exact absurd hh hne
        · exact hh
      show endsTerminal (x ++ [' '] ++ joinWith [' '] (y :: ys)) = true
      unfold endsTerminal at hends ⊢
      rw [getLast?_append_right hne]
      exact hends

theorem getLast?_collapseAux {c : Char} (hc : isWs c = false) :
    ∀ (l : List Char) (b : Bool), l.getLast? = some c →
      (collapseAux b l).getLast? = some c := by
  intro l
  induction l with
  | nil => intro b h; cases h
  | cons a as ih =>
    intro b h
    cases as with
    | nil =>
      have ha : a = c := by simpa using h
      subst ha
      cases b <;> simp [collapseAux, hc]
    | cons a2 as2 =>
      rw [List.getLast?_cons_cons] at h
      have hrec : ∀ b2, (collapseAux b2 (a2 :: as2)).getLast? = some c :=
        fun b2 => ih b2 h
      have hrecne : ∀ b2, collapseAux b2 (a2 :: as2) ≠ [] := by
        intro b2 hnil
        have hb := hrec b2
        rw [hnil] at hb
        cases hb
      by_cases hw : isWs a = true
      · cases b with
        | true =>
          have e1 : collapseAux true (a :: a2 :: as2) = collapseAux true (a2 :: as2) := by
            simp [collapseAux, hw]
          rw [e1]
          exact hrec true
        | false =>
          have e1 : collapseAux false (a :: a2 :: as2) = ' ' :: collapseAux true (a2 :: as2) := by
            simp [collapseAux, hw]
          rw [e1, getLast?_cons_of_ne_nil (hrecne true)]
          exact hrec true
      · have e1 : collapseAux b (a :: a2 :: as2) = a :: collapseAux false (a2 :: as2) := by
          simp [collapseAux, hw]
        rw [e1, getLast?_cons_of_ne_nil (hrecne false)]
        exact hrec false

theorem getLast?_dropWhileWs {c : Char} (hc : isWs c = false) :
    ∀ l : List Char, l.getLast? = some c →
      (l.dropWhile isWs).getLast? = some c := by
  intro l
  induction l with
  | nil => intro h; cases h
  | cons a as ih =>
    intro h
    by_cases hw : isWs a = true
    · rw [List.dropWhile_cons_of_pos hw]
      cases as with
      | nil =>
        have ha : a = c := by simpa using h
        subst ha
        rw [hw] at hc
        cases hc
      | cons a2 as2 =>
        rw [List.getLast?_cons_cons] at h
        exact ih h
    · rw [List.dropWhile_cons_of_neg (by simpa using hw)]
      exact h

theorem normalizeWs_getLast {m : List Char} {c : Char} (hc : isWs c = false)
    (h : m.getLast? = some c) : (normalizeWs m).getLast? = some c := by
  unfold normalizeWs collapseWs pyStrip
  have h1 : (collapseAux false m).getLast? = some c := getLast?_collapseAux hc m false h
  have h2 : ((collapseAux false m).dropWhile isWs).getLast? = some c :=
    getLast?_dropWhileWs hc _ h1
  have hh : ((collapseAux false m).dropWhile isWs).reverse.head? = some c := by
    rw [List.head?_reverse]
    exact h2
  cases hrev : ((collapseAux false m).dropWhile isWs).reverse with
  | nil =>
    rw [hrev] at hh
    cases hh
  | cons d ds =>
    rw [hrev] at hh
    have hd : d = c := by simpa using hh
    rw [List.dropWhile_cons_of_neg (by rw [hd]; simp [hc]), ← hrev, List.reverse_reverse]
    exact h2

theorem rewrite_norm_good (limit : Nat) (t : List Char) :
    normalizeWs (rewrite_sentences limit t) = [] ∨
      ∃ c, (normalizeWs (rewrite_sentences limit t)).getLast? = some c ∧
        isTerminal c = true := by
  unfold rewrite_sentences
  have hall : ∀ x ∈ (splitSentences t).flatMap (processCandidate limit),
      x ≠ [] ∧ endsTerminal x = true := by
    intro x hx
    rw [List.mem_flatMap] at hx
    obtain ⟨s2, -, hx2⟩ := hx
    exact processCandidate_good hx2
  rcases joinWith_good hall with h | h
  · left
    rw [h]
    rfl
  · right
    unfold endsTerminal at h
    cases hgl : (joinWith [' '] ((splitSentences t).flatMap (processCandidate limit))).getLast? with
    | none =>
      rw [hgl] at h
      cases h
    | some c =>
      rw [hgl] at h
      exact ⟨c, normalizeWs_getLast (terminal_not_ws h) hgl, h⟩

/-- Claim C10, counterexample: a non-empty, non-whitespace input can still
produce empty output: with `jargonMap = {"hello": ""}` the whole text is
erased by the substitution pass and `simplify("hello")` returns `""`, so
"output empty exactly when input empty or whitespace-only" fails. -/
theorem claim_C10_counterexample :
    simplifyS ⟨[("hello".data, "".data)], [], [], [], 22⟩ "hello" = "" ∧
      "hello" ≠ "" ∧ "hello".data.all isWs = false := by
  refine ⟨by decide, by decide, by decide⟩

/-- Claim C10, amended: for every RuleSet and input string, the output of
`simplify` is either the empty string or ends in one of `.`, `!`, `?`:
every emitted sentence of the rewrite pass ends in terminal punctuation and
the final whitespace normalization preserves the last non-whitespace
character.  (Empty or whitespace-only input gives empty output, but — as the
counterexample shows — rules that erase all content can give empty output on
other inputs too, so emptiness does not characterise whitespace-only
input.) -/
theorem claim_C10_amended (R : RuleSet) (s : String) :
    simplifyS R s = "" ∨
      ∃ c, (simplifyS R s).data.getLast? = some c ∧ isTerminal c = true := by
  unfold simplifyS simplify_text
  by_cases h0 : s.data = []
  · left
    rw [if_pos h0, h0]
  · rw [if_neg h0]
    rcases rewrite_norm_good R.sentence_length_limit
        (apply_kyc_doc_rules R.kyc_documents (apply_patterns R.patterns
          (apply_word_map R.tone_map (apply_word_map R.jargon_map (normalizeWs s.data))))) with h | h
    · left
      exact congrArg String.mk h
    · rcases h with ⟨c, hc1, hc2⟩
      right
      exact ⟨c, hc1, hc2⟩
